import Mathlib

/-!
Verification development for the chat-platform agent repository.

The definitions below are shallow embeddings of the TypeScript source:
JavaScript strings become `String` or `List Char`, arrays become `List`,
the SQLite `messages` table becomes an association list keyed by message id,
and the binary64 arithmetic used by the prune step is modelled exactly over
`Nat`. External collaborators (the LLM endpoint, the Discord REST API, the
Tavily fetch calls) are passed in as explicit parameters or outcome lists.
-/

namespace AwesomeAgents

/-! ## Binary64 model of `Math.floor(n * PRUNE_PERCENTAGE)`

The constant `PRUNE_PERCENTAGE` is the JavaScript literal `0.7`, whose
binary64 value is exactly `6305039478318694 / 2 ^ 53`. The JavaScript
product `bufferSize * 0.7` rounds the exact rational product to the nearest
binary64 value (ties to even) at 53 significant bits, and `Math.floor`
then truncates. For a `Nat` input the exact scaled product is
`p = n * 6305039478318694` over the denominator `2 ^ 53`; rounding keeps
the top 53 bits of `p`, rounding the rest to nearest-even. -/

/-- Number of halvings needed to bring `m` strictly below `2 ^ 53`; with
enough fuel this is the number of binary digits of `m` beyond 53. Written
with structural fuel so that the kernel can evaluate it. -/
def excessBits : Nat → Nat → Nat
  | 0, _ => 0
  | fuel + 1, m => if m < 9007199254740992 then 0 else excessBits fuel (m / 2) + 1

/-- Exact value of the JavaScript expression `Math.floor(n * 0.7)` for a
natural number `n`: the rational `n * 6305039478318694 / 2 ^ 53` is rounded
to nearest-even at 53 significant bits and then floored. -/
def jsFloorMulPrune (n : Nat) : Nat :=
  let p := n * 6305039478318694
  let e := excessBits p p
  if e = 0 then p / 9007199254740992
  else
    let q := p / 2 ^ e
    let r := p % 2 ^ e
    let half := 2 ^ (e - 1)
    let q2 := if half < r ∨ (r = half ∧ q % 2 = 1) then q + 1 else q
    if e ≤ 53 then q2 / 2 ^ (53 - e) else q2 * 2 ^ (e - 53)

/-! ## Message store and context-window buffer (DM agent)

Embedding of the `MyAgent` state that the claims touch: the SQLite
`messages` table (id, role, content, tool_calls, tool_call_id) as an
association list with `INSERT OR REPLACE` semantics, and
`memory.messageBuffer` as the ordered list of message ids. -/

/-- Row of the `messages` table; `tool_calls` holds the already serialized
JSON text, matching the `JSON.stringify` performed before the insert. -/
structure StoredMessage where
  role : String
  content : Option String
  tool_calls : Option String
  tool_call_id : Option String
deriving DecidableEq, Repr

abbrev MessageStore := List (String × StoredMessage)

/-- Embedding of `INSERT OR REPLACE INTO messages`: replace the row with the
given primary key if present, otherwise append a new row. -/
def insertOrReplace (st : MessageStore) (id : String) (row : StoredMessage) :
    MessageStore :=
  if (st.lookup id).isSome then
    st.map (fun p => if p.1 = id then (id, row) else p)
  else st ++ [(id, row)]

/-- Agent-owned conversation state used by the DM flow: the message table
and the context-window buffer of message ids. -/
structure AgentState where
  store : MessageStore
  messageBuffer : List String
deriving DecidableEq, Repr

/-- State right after boot for a fresh conversation scope: empty table,
empty buffer. -/
def initialState : AgentState := { store := [], messageBuffer := [] }

/-- Input of the `addMessage` helper. -/
structure NewMessage where
  id : String
  role : String
  content : Option String
  tool_calls : Option String
  tool_call_id : Option String
deriving DecidableEq, Repr

/-- Embedding of `MyAgent.addMessage`: upsert the row into the table, then
append the id to the context-window buffer. -/
def addMessage (m : NewMessage) (s : AgentState) : AgentState :=
  { store := insertOrReplace s.store m.id
      { role := m.role, content := m.content, tool_calls := m.tool_calls,
        tool_call_id := m.tool_call_id },
    messageBuffer := s.messageBuffer ++ [m.id] }

def MAX_MESSAGES : Nat := 50

def summaryMarker : String := "summary_"

/-- Count of buffer entries the prune step removes,
`Math.floor(bufferSize * PRUNE_PERCENTAGE)`. -/
def numToRemove (s : AgentState) : Nat := jsFloorMulPrune s.messageBuffer.length

/-- Oldest buffer ids, `messageBuffer.slice(0, numToRemove)`. -/
def idsToSummarize (s : AgentState) : List String :=
  s.messageBuffer.take (numToRemove s)

/-- Newest buffer ids, `messageBuffer.slice(numToRemove)`. -/
def idsToKeep (s : AgentState) : List String :=
  s.messageBuffer.drop (numToRemove s)

/-- Rows sent to the summarization call: the ids to summarize resolved
against the table in buffer order, silently dropping missing ids. -/
def messagesToSummarize (s : AgentState) : List StoredMessage :=
  (idsToSummarize s).filterMap (fun id => s.store.lookup id)

/-- Embedding of `MyAgent.summarizeAndPruneMessages`. The LLM endpoint is
passed in as `llm`, mapping the rows being summarized to either a summary
text or a thrown error. The second component records normal return versus
a propagated exception; the first component is the state after the call,
which equals the input state whenever the call throws, because the source
performs no write before the LLM call resolves. -/
def summarizeAndPruneMessages (llm : List StoredMessage → Except String String)
    (now : Nat) (s : AgentState) : AgentState × Except String Unit :=
  if s.messageBuffer.length ≤ MAX_MESSAGES then (s, Except.ok ())
  else
    match llm (messagesToSummarize s) with
    | Except.error e => (s, Except.error e)
    | Except.ok summary =>
      let summaryMessageId := summaryMarker ++ toString now
      let summaryMessage :=
        "The following is a summary of the previous messages:\n" ++ summary
      ({ store := insertOrReplace s.store summaryMessageId
            { role := "user", content := some summaryMessage,
              tool_calls := none, tool_call_id := none },
         messageBuffer := summaryMessageId :: idsToKeep s },
       Except.ok ())

/-- Concrete test state with `n` user messages, ids `"0" … "n-1"`, each
present in the table and in the buffer. -/
def mkState (n : Nat) : AgentState :=
  { store := (List.range n).map (fun i =>
      (toString i,
        { role := "user", content := some "hi", tool_calls := none,
          tool_call_id := none })),
    messageBuffer := (List.range n).map (fun i => toString i) }

/-- C5: a buffer at or below `MAX_MESSAGES` makes the prune step a no-op:
the state is returned unchanged and the result does not depend on the LLM
parameter, so no LLM call is observable. -/
theorem prune_noop_below_max (s : AgentState)
    (llm : List StoredMessage → Except String String) (now : Nat)
    (h : s.messageBuffer.length ≤ MAX_MESSAGES) :
    summarizeAndPruneMessages llm now s = (s, Except.ok ()) := by
  unfold summarizeAndPruneMessages
  simp [h]

/-- Witness for C5 at the empty boot state with an always-failing LLM. -/
theorem prune_noop_below_max_witness :
    summarizeAndPruneMessages (fun _ => Except.error "down") 0 initialState
      = (initialState, Except.ok ()) :=
  prune_noop_below_max initialState (fun _ => Except.error "down") 0 (by decide)

/-- C3: when the buffer is over the limit and the LLM call throws, the
prune step commits nothing: the returned state is exactly the input state
and the exception propagates. -/
theorem prune_atomic_on_llm_error (s : AgentState)
    (llm : List StoredMessage → Except String String) (now : Nat) (e : String)
    (hlen : MAX_MESSAGES < s.messageBuffer.length)
    (hllm : ∀ rows, llm rows = Except.error e) :
    summarizeAndPruneMessages llm now s = (s, Except.error e) := by
  unfold summarizeAndPruneMessages
  rw [if_neg (by omega), hllm]

/-- Witness for C3 at a 51-message state. -/
theorem prune_atomic_on_llm_error_witness :
    summarizeAndPruneMessages (fun _ => Except.error "boom") 7 (mkState 51)
      = (mkState 51, Except.error "boom") :=
  prune_atomic_on_llm_error (mkState 51) (fun _ => Except.error "boom") 7 "boom"
    (by decide) (fun _ => rfl)

/-- C1 (amended): a prune at buffer length `N > MAX_MESSAGES` with a
successful LLM call removes the `Math.floor(N * 0.7)` (binary64 product)
oldest ids, keeps the remaining newest ids in order, and sets the buffer to
the synthetic summary id followed by the kept ids. -/
theorem prune_removes_oldest (s : AgentState)
    (llm : List StoredMessage → Except String String) (now : Nat)
    (summary : String)
    (hlen : MAX_MESSAGES < s.messageBuffer.length)
    (hllm : llm (messagesToSummarize s) = Except.ok summary) :
    (summarizeAndPruneMessages llm now s).2 = Except.ok () ∧
    (summarizeAndPruneMessages llm now s).1.messageBuffer
      = (summaryMarker ++ toString now)
          :: s.messageBuffer.drop (jsFloorMulPrune s.messageBuffer.length) ∧
    (summarizeAndPruneMessages llm now s).1.messageBuffer.length
      = s.messageBuffer.length - jsFloorMulPrune s.messageBuffer.length + 1 := by
  unfold summarizeAndPruneMessages
  rw [if_neg (by omega), hllm]
  refine ⟨rfl, rfl, ?_⟩
  simp [idsToKeep, numToRemove]

/-- Counterexample to C1 as stated: at buffer length 90 the code removes
`Math.floor(90 * 0.7) = 62` ids and keeps 28, so the resulting buffer has
29 entries, while the exact-arithmetic reading `floor(90 * 7 / 10) = 63`
of the claim predicts 28 entries. -/
theorem prune_formula_counterexample :
    (summarizeAndPruneMessages (fun _ => Except.ok "S") 3
        (mkState 90)).1.messageBuffer.length = 29
    ∧ 90 - 90 * 7 / 10 + 1 = 28 ∧ (29 : Nat) ≠ 28 :=
  ⟨by decide, by decide, by decide⟩

/-- Witness for C1 at the quoted scenario: buffer of 60 ids prunes to a
final buffer of 19 entries (one summary id plus the 18 kept ids). -/
theorem prune_removes_oldest_witness :
    (summarizeAndPruneMessages (fun _ => Except.ok "S") 3
        (mkState 60)).1.messageBuffer.length = 19 :=
  ((prune_removes_oldest (mkState 60) (fun _ => Except.ok "S") 3 "S"
      (by decide) rfl).2.2).trans (by decide)

/-- C4 (amended): a prune that fires at buffer length `N > MAX_MESSAGES`
leaves `N - Math.floor(N * 0.7) + 1` entries (one summary id plus the kept
tail), where `N` is the length at prune time rather than `MAX_MESSAGES`;
and the prune step fires only when the buffer length exceeds
`MAX_MESSAGES`, acting as the identity otherwise. -/
theorem prune_buffer_bound (s : AgentState)
    (llm : List StoredMessage → Except String String) (now : Nat)
    (summary : String)
    (hlen : MAX_MESSAGES < s.messageBuffer.length)
    (hllm : llm (messagesToSummarize s) = Except.ok summary) :
    (summarizeAndPruneMessages llm now s).1.messageBuffer.length
      = s.messageBuffer.length - jsFloorMulPrune s.messageBuffer.length + 1
    ∧ ∀ (s2 : AgentState) (llm2 : List StoredMessage → Except String String)
        (now2 : Nat), s2.messageBuffer.length ≤ MAX_MESSAGES →
          summarizeAndPruneMessages llm2 now2 s2 = (s2, Except.ok ()) := by
  constructor
  · unfold summarizeAndPruneMessages
    rw [if_neg (by omega), hllm]
    simp [idsToKeep, numToRemove]
  · intro s2 llm2 now2 h2
    unfold summarizeAndPruneMessages
    simp [h2]

/-- Counterexample to C4 as stated: the earliest possible prune fires at
buffer length 51 and leaves 17 entries, not
`MAX_MESSAGES - floor(MAX_MESSAGES * 0.7) + 1 = 16`. -/
theorem prune_bound_counterexample :
    (summarizeAndPruneMessages (fun _ => Except.ok "S") 3
        (mkState 51)).1.messageBuffer.length = 17
    ∧ MAX_MESSAGES - MAX_MESSAGES * 7 / 10 + 1 = 16 ∧ (17 : Nat) ≠ 16 :=
  ⟨by decide, by decide, by decide⟩

/-- Witness for C4 at buffer length 60: the pruned buffer has
`60 - 42 + 1 = 19` entries. -/
theorem prune_buffer_bound_witness :
    (summarizeAndPruneMessages (fun _ => Except.ok "T") 5
        (mkState 60)).1.messageBuffer.length = 19 :=
  ((prune_buffer_bound (mkState 60) (fun _ => Except.ok "T") 5 "T"
      (by decide) rfl).1).trans (by decide)

/-! ## Buffer and store consistency -/

theorem lookup_cons_self (k : String) (v : StoredMessage) (tl : MessageStore) :
    ((k, v) :: tl).lookup k = some v := by
  simp [List.lookup]

theorem lookup_cons_ne (k a : String) (v : StoredMessage) (tl : MessageStore)
    (h : a ≠ k) : ((k, v) :: tl).lookup a = tl.lookup a := by
  rw [List.lookup, beq_eq_false_iff_ne.mpr h]

theorem lookup_map_replace_of_isSome (st : MessageStore) (id : String)
    (row : StoredMessage) (h : (st.lookup id).isSome) :
    (st.map (fun p => if p.1 = id then (id, row) else p)).lookup id
      = some row := by
  induction st with
  | nil => simp [List.lookup] at h
  | cons hd tl ih =>
    obtain ⟨k, v⟩ := hd
    by_cases hk : k = id
    · subst hk
      simp only [List.map_cons, if_pos rfl]
      exact lookup_cons_self k row _
    · rw [lookup_cons_ne k id v tl (fun hc => hk hc.symm)] at h
      simp only [List.map_cons, if_neg hk]
      rw [lookup_cons_ne k id v _ (fun hc => hk hc.symm)]
      exact ih h

theorem lookup_insertOrReplace_self (st : MessageStore) (id : String)
    (row : StoredMessage) :
    (insertOrReplace st id row).lookup id = some row := by
  unfold insertOrReplace
  by_cases h : (st.lookup id).isSome
  · rw [if_pos h]
    exact lookup_map_replace_of_isSome st id row h
  · rw [if_neg h]
    induction st with
    | nil => exact lookup_cons_self id row []
    | cons hd tl ih =>
      obtain ⟨k, v⟩ := hd
      by_cases hk : id = k
      · subst hk
        rw [lookup_cons_self] at h
        simp at h
      · rw [lookup_cons_ne k id v tl hk] at h
        rw [List.cons_append, lookup_cons_ne k id v _ hk]
        exact ih h

theorem lookup_insertOrReplace_ne (st : MessageStore) (id : String)
    (row : StoredMessage) (id2 : String) (h : id2 ≠ id) :
    (insertOrReplace st id row).lookup id2 = st.lookup id2 := by
  unfold insertOrReplace
  by_cases hmem : (st.lookup id).isSome
  · rw [if_pos hmem]
    clear hmem
    induction st with
    | nil => simp
    | cons hd tl ih =>
      obtain ⟨k, v⟩ := hd
      by_cases hk : k = id
      · subst hk
        have hf : (if (k, v).1 = k then (k, row) else (k, v)) = (k, row) := by
          simp
        rw [List.map_cons, hf, lookup_cons_ne k id2 row _ h,
          lookup_cons_ne k id2 v tl h]
        exact ih
      · simp only [List.map_cons, if_neg hk]
        by_cases hk2 : id2 = k
        · subst hk2
          rw [lookup_cons_self, lookup_cons_self]
        · rw [lookup_cons_ne k id2 v _ hk2, lookup_cons_ne k id2 v tl hk2]
          exact ih
  · rw [if_neg hmem]
    clear hmem
    induction st with
    | nil => exact lookup_cons_ne id id2 row [] h
    | cons hd tl ih =>
      obtain ⟨k, v⟩ := hd
      by_cases hk2 : id2 = k
      · subst hk2
        rw [List.cons_append, lookup_cons_self, lookup_cons_self]
      · rw [List.cons_append, lookup_cons_ne k id2 v _ hk2,
          lookup_cons_ne k id2 v tl hk2]
        exact ih

/-- Every id in the context-window buffer resolves to a stored row. -/
def noDanglingIds (s : AgentState) : Prop :=
  ∀ id ∈ s.messageBuffer, (s.store.lookup id).isSome

/-- C6: the no-dangling-references invariant holds of the boot state and is
preserved by `addMessage` and by the prune-and-summarize step, which writes
the summary row to the table before placing its id in the buffer. -/
theorem buffer_ids_resolve :
    noDanglingIds initialState
    ∧ (∀ (s : AgentState) (m : NewMessage),
        noDanglingIds s → noDanglingIds (addMessage m s))
    ∧ (∀ (s : AgentState) (llm : List StoredMessage → Except String String)
        (now : Nat), noDanglingIds s →
          noDanglingIds (summarizeAndPruneMessages llm now s).1) := by
  refine ⟨?_, ?_, ?_⟩
  · intro id h
    simp [initialState] at h
  · intro s m h id hid
    unfold addMessage at hid ⊢
    simp only [List.mem_append, List.mem_singleton] at hid
    by_cases heq : id = m.id
    · subst heq
      rw [lookup_insertOrReplace_self]
      rfl
    · rw [lookup_insertOrReplace_ne _ _ _ _ heq]
      exact h id (hid.resolve_right heq)
  · intro s llm now h
    unfold summarizeAndPruneMessages
    by_cases hle : s.messageBuffer.length ≤ MAX_MESSAGES
    · rw [if_pos hle]
      exact h
    · rw [if_neg hle]
      cases hllm : llm (messagesToSummarize s) with
      | error e => exact h
      | ok summary =>
        intro id hid
        simp only [List.mem_cons] at hid
        by_cases heq : id = summaryMarker ++ toString now
        · subst heq
          rw [lookup_insertOrReplace_self]
          rfl
        · rw [lookup_insertOrReplace_ne _ _ _ _ heq]
          exact h id (List.drop_subset _ _ (hid.resolve_left heq))

/-- Witness for C6: the invariant holds after adding one message to the
boot state. -/
theorem buffer_ids_resolve_witness :
    noDanglingIds (addMessage
      { id := "m1", role := "user", content := some "hi", tool_calls := none,
        tool_call_id := none } initialState) :=
  buffer_ids_resolve.2.1 initialState
    { id := "m1", role := "user", content := some "hi", tool_calls := none,
      tool_call_id := none } buffer_ids_resolve.1

/-! ## Memory blocks and the memory edit tools

Embedding of `MemoryBlockI` and of the `memory_replace` / `memory_insert`
tool bodies. Block values are JavaScript strings, modelled as `List Char`
so that the line and substring operations stay elementary. -/

structure MemoryBlock where
  label : String
  description : String
  value : List Char
  limit : Nat
  readOnly : Bool
  lastUpdated : Nat
deriving DecidableEq, Repr

/-- Scanning pass of JavaScript `String.prototype.replaceAll` for a
non-empty pattern: at each position, if the pattern occurs there, emit the
replacement and skip the pattern, otherwise keep the character; matches do
not overlap and the scan is left to right. -/
def replaceAllGo (old new : List Char) : List Char → List Char
  | [] => []
  | c :: rest =>
    if 0 < old.length ∧ (c :: rest).take old.length = old then
      new ++ replaceAllGo old new (rest.drop (old.length - 1))
    else
      c :: replaceAllGo old new rest
termination_by l => l.length
decreasing_by
  · simp only [List.length_drop, List.length_cons]
    omega
  · simp only [List.length_cons]
    omega

/-- JavaScript `value.replaceAll(old, new)`. An empty pattern inserts the
replacement at every position, matching the JavaScript behaviour. -/
def replaceAll (old new s : List Char) : List Char :=
  if old.isEmpty then new ++ s.foldr (fun c acc => c :: (new ++ acc)) []
  else replaceAllGo old new s

/-- Embedding of the `memoryReplace` tool body: unknown labels return the
not-found sentinel with the blocks untouched; otherwise every occurrence of
`old_str` in the labelled block is replaced and `lastUpdated` is set. The
success text matches the source, which reuses the insert message. -/
def memoryReplace (label : String) (old_str new_str : List Char) (now : Nat)
    (blocks : List MemoryBlock) : List MemoryBlock × String :=
  if (blocks.find? (fun b => b.label == label)).isNone then
    (blocks, "Block not found")
  else
    (blocks.map (fun b =>
      if b.label = label then
        { b with
          value := replaceAll old_str new_str b.value
          lastUpdated := now }
      else b),
     "Successfully inserted into memory block")

theorem replaceAllGo_single (x y : Char) (s : List Char) :
    replaceAllGo [x] [y] s = s.map (fun c => if c = x then y else c) := by
  induction s with
  | nil => simp [replaceAllGo]
  | cons c rest ih =>
    rw [replaceAllGo]
    by_cases hc : c = x
    · rw [if_pos (by simp [hc])]
      simp [hc, ih]
    · rw [if_neg (by simp [hc])]
      simp [hc, ih]

theorem count_map_replace_eq_zero (x y : Char) (hxy : x ≠ y) (s : List Char) :
    (s.map (fun c => if c = x then y else c)).count x = 0 := by
  induction s with
  | nil => rfl
  | cons c rest ih =>
    by_cases hc : c = x
    · simpa [hc, List.count_cons, hxy, Ne.symm hxy] using ih
    · simpa [hc, List.count_cons] using ih

theorem count_map_replace_target (x y : Char) (hxy : x ≠ y) (s : List Char) :
    (s.map (fun c => if c = x then y else c)).count y
      = s.count x + s.count y := by
  induction s with
  | nil => rfl
  | cons c rest ih =>
    by_cases hc : c = x
    · simp [hc, List.count_cons, hxy, Ne.symm hxy, ih]
      omega
    · by_cases hcy : c = y
      · simp [hc, hcy, List.count_cons, hxy, Ne.symm hxy, ih]
        omega
      · simp [hc, hcy, List.count_cons, ih]

/-- C7: replacing a single character in a known block replaces every
occurrence, not only the first, and stamps `lastUpdated`; an unknown label
yields the not-found sentinel and leaves every block unchanged. -/
theorem memoryReplace_replaces_all (blocks : List MemoryBlock) (label : String)
    (x y : Char) (now : Nat) (hxy : x ≠ y) :
    (blocks.find? (fun b => b.label == label) = none →
        memoryReplace label [x] [y] now blocks = (blocks, "Block not found"))
    ∧ ∀ b, blocks.find? (fun b => b.label == label) = some b →
        b.value.count x = 3 → b.value.count y = 0 →
        (memoryReplace label [x] [y] now blocks).2
            = "Successfully inserted into memory block"
        ∧ ∃ b2 ∈ (memoryReplace label [x] [y] now blocks).1,
            b2.label = label ∧ b2.value.count x = 0 ∧ b2.value.count y = 3
            ∧ b2.lastUpdated = now := by
  constructor
  · intro h
    unfold memoryReplace
    rw [if_pos (by simp [h])]
  · intro b hfind h3 h0
    have hb : b ∈ blocks := List.mem_of_find?_eq_some hfind
    have hlab : b.label = label := by
      have := List.find?_some hfind
      simpa using this
    have hval : replaceAll [x] [y] b.value
        = b.value.map (fun c => if c = x then y else c) := by
      unfold replaceAll
      rw [if_neg (by simp)]
      exact replaceAllGo_single x y b.value
    constructor
    · unfold memoryReplace
      rw [if_neg (by simp [hfind])]
    · refine ⟨{ b with
          value := replaceAll [x] [y] b.value
          lastUpdated := now }, ?_, hlab, ?_, ?_, rfl⟩
      · unfold memoryReplace
        rw [if_neg (by simp [hfind])]
        have hmem := List.mem_map_of_mem
          (fun b => if b.label = label then
            { b with
              value := replaceAll [x] [y] b.value
              lastUpdated := now }
          else b) hb
        simpa [hlab] using hmem
      · rw [hval, count_map_replace_eq_zero x y hxy]
      · rw [hval, count_map_replace_target x y hxy, h3, h0]

/-- Witness for C7: a persona block containing three occurrences of 'x'
ends with zero occurrences of 'x' and three of 'y'. -/
theorem memoryReplace_replaces_all_witness :
    (memoryReplace "persona" ['x'] ['y'] 5
        [{ label := "persona", description := "d",
           value := ['a', 'x', 'b', 'x', 'c', 'x'], limit := 100,
           readOnly := false, lastUpdated := 0 }]).2
      = "Successfully inserted into memory block"
    ∧ ∃ b2 ∈ (memoryReplace "persona" ['x'] ['y'] 5
        [{ label := "persona", description := "d",
           value := ['a', 'x', 'b', 'x', 'c', 'x'], limit := 100,
           readOnly := false, lastUpdated := 0 }]).1,
        b2.label = "persona" ∧ b2.value.count 'x' = 0 ∧ b2.value.count 'y' = 3
        ∧ b2.lastUpdated = 5 :=
  (memoryReplace_replaces_all
      [{ label := "persona", description := "d",
         value := ['a', 'x', 'b', 'x', 'c', 'x'], limit := 100,
         readOnly := false, lastUpdated := 0 }] "persona" 'x' 'y' 5
      (by decide)).2
    { label := "persona", description := "d",
      value := ['a', 'x', 'b', 'x', 'c', 'x'], limit := 100,
      readOnly := false, lastUpdated := 0 }
    (by decide) (by decide) (by decide)

/-- JavaScript `value.split("\n")`: the (always non-empty) list of lines,
where the empty string splits to one empty line. -/
def splitLines : List Char → List (List Char)
  | [] => [[]]
  | c :: rest =>
    if c = '\n' then [] :: splitLines rest
    else
      match splitLines rest with
      | [] => [[c]]
      | l :: ls => (c :: l) :: ls

/-- JavaScript `lines.join("\n")`. -/
def joinLines : List (List Char) → List Char
  | [] => []
  | [l] => l
  | l :: l2 :: ls => l ++ '\n' :: joinLines (l2 :: ls)

/-- Start index used by `Array.prototype.splice`: negative values count
from the end and clamp at zero, positive values clamp at the length. -/
def spliceIndex (len : Nat) (i : Int) : Nat :=
  if i < 0 then (Int.ofNat len + i).toNat else min i.toNat len

/-- JavaScript `arr.splice(i, 0, x)`: insert `x` at the resolved splice
index, deleting nothing. -/
def spliceInsert (l : List α) (i : Int) (x : α) : List α :=
  let k := spliceIndex l.length i
  l.take k ++ x :: l.drop k

/-- Embedding of the `memoryInsert` tool body: unknown labels return the
not-found sentinel with the blocks untouched; otherwise the value is split
on line breaks, `new_str` is spliced in at `insert_line`, the lines are
rejoined and `lastUpdated` is set. -/
def memoryInsert (label : String) (new_str : List Char) (insert_line : Int)
    (now : Nat) (blocks : List MemoryBlock) : List MemoryBlock × String :=
  if (blocks.find? (fun b => b.label == label)).isNone then
    (blocks, "Block not found")
  else
    (blocks.map (fun b =>
      if b.label = label then
        { b with
          value := joinLines
            (spliceInsert (splitLines b.value) insert_line new_str)
          lastUpdated := now }
      else b),
     "Successfully inserted into memory block")

theorem splitLines_ne_nil (s : List Char) : splitLines s ≠ [] := by
  induction s with
  | nil => simp [splitLines]
  | cons c rest ih =>
    by_cases hc : c = '\n'
    · simp [splitLines, hc]
    · cases h : splitLines rest with
      | nil => simp [splitLines, hc, h]
      | cons l ls => simp [splitLines, hc, h]

theorem newline_not_mem_splitLines (s : List Char) :
    ∀ l ∈ splitLines s, '\n' ∉ l := by
  induction s with
  | nil =>
    intro l hl
    simp [splitLines] at hl
    simp [hl]
  | cons c rest ih =>
    intro l hl
    by_cases hc : c = '\n'
    · simp only [splitLines, if_pos hc, List.mem_cons] at hl
      rcases hl with h1 | h1
      · simp [h1]
      · exact ih l h1
    · cases h : splitLines rest with
      | nil => exact absurd h (splitLines_ne_nil rest)
      | cons l0 ls =>
        simp only [splitLines, if_neg hc, h, List.mem_cons] at hl
        rcases hl with h1 | h1
        · subst h1
          intro hmem
          rcases List.mem_cons.mp hmem with h2 | h2
          · exact hc h2.symm
          · exact ih l0 (h ▸ List.mem_cons_self l0 ls) h2
        · exact ih l (h ▸ List.mem_cons_of_mem l0 h1)

theorem splitLines_append (l m : List Char) (hl : '\n' ∉ l)
    (m0 : List Char) (ms : List (List Char)) (hm : splitLines m = m0 :: ms) :
    splitLines (l ++ m) = (l ++ m0) :: ms := by
  induction l with
  | nil => simpa using hm
  | cons c rest ih =>
    have hc : ¬c = '\n' := fun h => hl (h ▸ List.mem_cons_self c rest)
    have hrest : '\n' ∉ rest := fun h => hl (List.mem_cons_of_mem c h)
    rw [List.cons_append]
    simp only [splitLines, if_neg hc, ih hrest]
    simp

theorem splitLines_joinLines (ls : List (List Char)) (hne : ls ≠ [])
    (h : ∀ l ∈ ls, '\n' ∉ l) : splitLines (joinLines ls) = ls := by
  induction ls with
  | nil => exact absurd rfl hne
  | cons l tail ih =>
    cases tail with
    | nil =>
      have := splitLines_append l [] (h l (List.mem_cons_self l [])) [] []
        (by simp [splitLines])
      simpa [joinLines] using this
    | cons l2 ls2 =>
      have hih : splitLines (joinLines (l2 :: ls2)) = l2 :: ls2 :=
        ih (by simp) (fun a ha => h a (List.mem_cons_of_mem l ha))
      have hm : splitLines ('\n' :: joinLines (l2 :: ls2)) = [] :: l2 :: ls2 := by
        simp [splitLines, hih]
      have := splitLines_append l ('\n' :: joinLines (l2 :: ls2))
        (h l (List.mem_cons_self l (l2 :: ls2))) [] (l2 :: ls2) hm
      simpa [joinLines] using this

/-- C8: on a known block, inserting at line 0 makes the text the new first
line, and inserting at line -1 places the text immediately before the
current last line (splice semantics, not an append); `lastUpdated` is
stamped in both cases. -/
theorem memoryInsert_boundary (blocks : List MemoryBlock) (label : String)
    (text : List Char) (now : Nat) (b : MemoryBlock)
    (hfind : blocks.find? (fun b => b.label == label) = some b)
    (htext : '\n' ∉ text) :
    (∃ b2 ∈ (memoryInsert label text 0 now blocks).1,
        b2.label = label ∧ splitLines b2.value = text :: splitLines b.value
        ∧ b2.lastUpdated = now)
    ∧ (∃ b2 ∈ (memoryInsert label text (-1) now blocks).1,
        b2.label = label
        ∧ (∃ front lastLine, splitLines b.value = front ++ [lastLine]
            ∧ splitLines b2.value = front ++ [text, lastLine])
        ∧ b2.lastUpdated = now) := by
  have hb : b ∈ blocks := List.mem_of_find?_eq_some hfind
  have hlab : b.label = label := by
    have := List.find?_some hfind
    simpa using this
  have hpieces : ∀ l ∈ splitLines b.value, '\n' ∉ l :=
    newline_not_mem_splitLines b.value
  have hmemAt : ∀ i : Int, ∃ b2 ∈ (memoryInsert label text i now blocks).1,
      b2.value = joinLines (spliceInsert (splitLines b.value) i text)
      ∧ b2.label = label ∧ b2.lastUpdated = now := by
    intro i
    refine ⟨{ b with
        value := joinLines (spliceInsert (splitLines b.value) i text)
        lastUpdated := now }, ?_, rfl, hlab, rfl⟩
    unfold memoryInsert
    rw [if_neg (by simp [hfind])]
    have hmem := List.mem_map_of_mem
      (fun b => if b.label = label then
        { b with
          value := joinLines (spliceInsert (splitLines b.value) i text)
          lastUpdated := now }
      else b) hb
    simpa [hlab] using hmem
  constructor
  · obtain ⟨b2, hb2, hval, hl2, hu2⟩ := hmemAt 0
    refine ⟨b2, hb2, hl2, ?_, hu2⟩
    have hsplice : spliceInsert (splitLines b.value) 0 text
        = text :: splitLines b.value := by
      simp [spliceInsert, spliceIndex]
    rw [hval, hsplice]
    refine splitLines_joinLines _ (by simp) ?_
    intro l hl
    rcases List.mem_cons.mp hl with h1 | h1
    · subst h1
      exact htext
    · exact hpieces l h1
  · obtain ⟨b2, hb2, hval, hl2, hu2⟩ := hmemAt (-1)
    refine ⟨b2, hb2, hl2, ?_, hu2⟩
    rcases List.eq_nil_or_concat (splitLines b.value) with hnil | ⟨front, lastLine, hfl⟩
    · exact absurd hnil (splitLines_ne_nil b.value)
    · rw [List.concat_eq_append] at hfl
      refine ⟨front, lastLine, hfl, ?_⟩
      have hlen : (splitLines b.value).length = front.length + 1 := by
        rw [hfl]
        simp
      have hidx : spliceIndex (splitLines b.value).length (-1) = front.length := by
        rw [hlen]
        simp [spliceIndex]
      have hsplice : spliceInsert (splitLines b.value) (-1) text
          = front ++ text :: [lastLine] := by
        unfold spliceInsert
        simp only [hidx, hfl]
        have hidx2 : spliceIndex (front ++ [lastLine]).length (-1)
            = front.length := by
          simp only [spliceIndex, if_pos (by norm_num : (-1 : Int) < 0),
            List.length_append, List.length_cons, List.length_nil,
            Int.ofNat_eq_coe]
          omega
        rw [hidx2, List.take_left, List.drop_left]
      rw [hval, hsplice]
      have : front ++ text :: [lastLine] = front ++ [text, lastLine] := rfl
      rw [this]
      refine splitLines_joinLines _ (by simp) ?_
      intro l hl
      rcases List.mem_append.mp hl with h1 | h1
      · exact hpieces l (hfl ▸ List.mem_append_left [lastLine] h1)
      · rcases List.mem_cons.mp h1 with h2 | h2
        · subst h2
          exact htext
        · have h3 : l = lastLine := by simpa using h2
          subst h3
          exact hpieces l (hfl ▸ List.mem_append_right front (by simp))

/-- Witness for C8 on a block whose value has the two lines `a` and `b`:
inserting `z` at line 0 yields lines `z, a, b`; inserting at line -1
yields `a, z, b`. -/
theorem memoryInsert_boundary_witness :
    (∃ b2 ∈ (memoryInsert "human" ['z'] 0 9
        [{ label := "human", description := "d",
           value := ['a', '\n', 'b'], limit := 100,
           readOnly := false, lastUpdated := 0 }]).1,
        b2.label = "human"
        ∧ splitLines b2.value
            = ['z'] :: splitLines (['a', '\n', 'b'] : List Char)
        ∧ b2.lastUpdated = 9)
    ∧ (∃ b2 ∈ (memoryInsert "human" ['z'] (-1) 9
        [{ label := "human", description := "d",
           value := ['a', '\n', 'b'], limit := 100,
           readOnly := false, lastUpdated := 0 }]).1,
        b2.label = "human"
        ∧ (∃ front lastLine,
            splitLines (['a', '\n', 'b'] : List Char) = front ++ [lastLine]
            ∧ splitLines b2.value = front ++ [['z'], lastLine])
        ∧ b2.lastUpdated = 9) :=
  memoryInsert_boundary
    [{ label := "human", description := "d", value := ['a', '\n', 'b'],
       limit := 100, readOnly := false, lastUpdated := 0 }] "human" ['z'] 9
    { label := "human", description := "d", value := ['a', '\n', 'b'],
      limit := 100, readOnly := false, lastUpdated := 0 }
    (by decide) (by decide)

/-! ## Tool dispatch

Embedding of `callTool` and the tool bodies it dispatches to. A fetch to
the search backend is modelled by its observable outcome per attempt. -/

inductive FetchOutcome where
  | ok (body : String)
  | rateLimited
  | badStatus (statusText : String)
  | networkError (msg : String)
deriving DecidableEq, Repr

/-- Retry loop of `internetSearch`, with `fuel` counting the remaining
iterations of `for (let i = 0; i < retries; i++)` so that `fuel = 1` is the
last attempt, on which a caught failure is rethrown; a 429 response sleeps
and retries; exhausting the loop returns the sentinel text. -/
def internetSearchGo (attempts : Nat → FetchOutcome) : Nat → Nat → Except String String
  | _, 0 => Except.ok "Error: Failed to search the internet"
  | i, fuel + 1 =>
    match attempts i with
    | FetchOutcome.ok body => Except.ok body
    | FetchOutcome.rateLimited => internetSearchGo attempts (i + 1) fuel
    | FetchOutcome.badStatus st =>
      if fuel = 0 then Except.error ("Failed to search the internet: " ++ st)
      else internetSearchGo attempts (i + 1) fuel
    | FetchOutcome.networkError m =>
      if fuel = 0 then Except.error m
      else internetSearchGo attempts (i + 1) fuel

/-- Embedding of the `internetSearch` tool: three attempts against the
search endpoint; a rejected final attempt rethrows, so the tool resolves to
`Except.error`. -/
def internetSearch (attempts : Nat → FetchOutcome) : Except String String :=
  internetSearchGo attempts 0 3

/-- Retry loop of `readWebsites`; identical to the search loop except for
the sentinel text, and with the thrown error reusing the search wording as
in the source. -/
def readWebsitesGo (attempts : Nat → FetchOutcome) : Nat → Nat → Except String String
  | _, 0 => Except.ok "Error: Failed to read the website(s)"
  | i, fuel + 1 =>
    match attempts i with
    | FetchOutcome.ok body => Except.ok body
    | FetchOutcome.rateLimited => readWebsitesGo attempts (i + 1) fuel
    | FetchOutcome.badStatus st =>
      if fuel = 0 then Except.error ("Failed to search the internet: " ++ st)
      else readWebsitesGo attempts (i + 1) fuel
    | FetchOutcome.networkError m =>
      if fuel = 0 then Except.error m
      else readWebsitesGo attempts (i + 1) fuel

/-- Embedding of the `readWebsites` tool. -/
def readWebsites (attempts : Nat → FetchOutcome) : Except String String :=
  readWebsitesGo attempts 0 3

/-- Embedding of the `memoryInsert` tool together with its
`getCurrentAgent` guard, which throws when no agent is bound. -/
def memoryInsertTool (agent : Option (List MemoryBlock)) (label : String)
    (new_str : List Char) (insert_line : Int) (now : Nat) :
    Except String (List MemoryBlock × String) :=
  match agent with
  | none => Except.error "Expected agent"
  | some blocks => Except.ok (memoryInsert label new_str insert_line now blocks)

/-- Embedding of the `memoryReplace` tool together with its
`getCurrentAgent` guard. -/
def memoryReplaceTool (agent : Option (List MemoryBlock)) (label : String)
    (old_str new_str : List Char) (now : Nat) :
    Except String (List MemoryBlock × String) :=
  match agent with
  | none => Except.error "Expected agent"
  | some blocks => Except.ok (memoryReplace label old_str new_str now blocks)

/-- Argument record passed to `callTool`, covering the fields of the four
tool schemas; unused fields keep their defaults. -/
structure ToolArgs where
  label : String := ""
  new_str : List Char := []
  old_str : List Char := []
  insert_line : Int := 0
  query : String := ""
  urls : List String := []

/-- Ambient effects visible to one `callTool` invocation: the agent bound
by `getCurrentAgent`, the per-attempt outcomes of the two network tools,
and the clock. -/
structure ToolEnv where
  agent : Option (List MemoryBlock)
  searchAttempts : Nat → FetchOutcome
  readAttempts : Nat → FetchOutcome
  now : Nat

/-- Embedding of the `callTool` dispatcher. The source wraps the dispatch
in try/catch, but the two network tools are async and their promise is
returned from inside the try without an await, so by JavaScript semantics a
rejection bypasses the catch and propagates to the caller; only the
synchronous throws of the memory tools are converted to a message string.
An unknown tool name falls through the branches and resolves to
`undefined`, modelled as `none`. -/
def callSingleTool (env : ToolEnv) (toolName : String) (args : ToolArgs) :
    Except String (Option String) :=
  if toolName = "memory_insert" then
    match memoryInsertTool env.agent args.label args.new_str args.insert_line
        env.now with
    | Except.error e => Except.ok (some e)
    | Except.ok r => Except.ok (some r.2)
  else if toolName = "memory_replace" then
    match memoryReplaceTool env.agent args.label args.old_str args.new_str
        env.now with
    | Except.error e => Except.ok (some e)
    | Except.ok r => Except.ok (some r.2)
  else if toolName = "internet_search" then
    (internetSearch env.searchAttempts).map (fun s => some s)
  else if toolName = "read_website" then
    (readWebsites env.readAttempts).map (fun s => some s)
  else Except.ok none

/-- C9 evidence: with the fetch rejecting on every attempt, dispatching
`internet_search` makes `callTool` propagate the rejection to the tool-call
loop instead of returning it as a string, while the synchronous throw of
`memory_insert` with no bound agent is caught and returned as a string. -/
theorem callTool_async_error_escapes :
    callSingleTool
        { agent := none,
          searchAttempts := fun _ => FetchOutcome.networkError "network down",
          readAttempts := fun _ => FetchOutcome.networkError "network down",
          now := 0 } "internet_search" {}
      = Except.error "network down"
    ∧ callSingleTool
        { agent := none,
          searchAttempts := fun _ => FetchOutcome.networkError "network down",
          readAttempts := fun _ => FetchOutcome.networkError "network down",
          now := 0 } "memory_insert" {}
      = Except.ok (some "Expected agent") :=
  ⟨rfl, rfl⟩

/-! ## Channel checkpoints (guild flow)

Embedding of `buildContextFromDiscord`. Discord snowflake ids are the
platform ordering key and are modelled as `Nat`; the summarization call
`summarizeMessages` is an LLM collaborator and is passed in as a function
of the previous summary and the fetched page. -/

structure DiscordMsg where
  id : Nat
  authorId : Nat
  content : String
deriving DecidableEq, Repr, Inhabited

/-- Modelled from the spec: the external collaborator
`fetchRecentMessages(channelId, \x7blimit, before?\x7d)` of section 6,
instantiated with the Discord REST behaviour the source relies on. The
channel is the full message list in platform order, newest first; a fetch
returns the first `limit` entries, restricted to ids strictly below
`before` when given. -/
def fetchChannelMessages (channel : List DiscordMsg) (limit : Nat)
    (before : Option Nat) : List DiscordMsg :=
  (match before with
   | none => channel
   | some b => channel.filter (fun m => m.id < b)).take limit

/-- Embedding of `recentMessages.reduce((oldest, msg) => ...)`: the entry
with the least id, first occurrence winning, seeded with the head. -/
def reduceOldest (l : List DiscordMsg) : DiscordMsg :=
  match l with
  | [] => default
  | m :: rest =>
    rest.foldl (fun oldest msg => if msg.id < oldest.id then msg else oldest) m

structure ChannelCheckpoint where
  oldestSeenMessageId : Option Nat
  summary : Option String
deriving DecidableEq, Repr

/-- Embedding of `buildContextFromDiscord` for one channel: fetch the most
recent page, and when it is a full page whose oldest entry is not the
recorded boundary, fetch the next older page, fold it into the summary and
advance the boundary to the oldest recent id. Returns the checkpoint, the
summary and the recent page. -/
def buildContextFromDiscord (summarizeFn : String → List DiscordMsg → String)
    (channel : List DiscordMsg) (cp : ChannelCheckpoint) :
    ChannelCheckpoint × String × List DiscordMsg :=
  let recentMessages := fetchChannelMessages channel 100 none
  if recentMessages.isEmpty then (cp, cp.summary.getD "", [])
  else
    let oldestRecent := reduceOldest recentMessages
    if recentMessages.length = 100
        ∧ cp.oldestSeenMessageId ≠ some oldestRecent.id then
      let olderMessages := fetchChannelMessages channel 100 (some oldestRecent.id)
      if olderMessages.isEmpty then (cp, cp.summary.getD "", recentMessages)
      else
        let s := summarizeFn (cp.summary.getD "") olderMessages
        ({ oldestSeenMessageId := some oldestRecent.id, summary := some s },
         s, recentMessages)
    else (cp, cp.summary.getD "", recentMessages)

/-- Test channel with ids `hi` down to `lo`, newest first. -/
def mkChannel (hi lo : Nat) : List DiscordMsg :=
  (List.range (hi + 1 - lo)).map
    (fun k => { id := hi - k, authorId := 1, content := "m" })

theorem foldlOldest_bounds (l : List DiscordMsg) (acc : DiscordMsg) :
    (l.foldl (fun oldest msg => if msg.id < oldest.id then msg else oldest) acc)
        ∈ acc :: l
    ∧ (l.foldl (fun oldest msg => if msg.id < oldest.id then msg else oldest)
        acc).id ≤ acc.id
    ∧ ∀ m ∈ l, (l.foldl
        (fun oldest msg => if msg.id < oldest.id then msg else oldest)
        acc).id ≤ m.id := by
  induction l generalizing acc with
  | nil => simp
  | cons c rest ih =>
    rw [List.foldl_cons]
    obtain ⟨hmem, hle, hall⟩ := ih (if c.id < acc.id then c else acc)
    have hacc2 : (if c.id < acc.id then c else acc).id ≤ acc.id
        ∧ (if c.id < acc.id then c else acc).id ≤ c.id := by
      by_cases h : c.id < acc.id
      · simp [h]
        omega
      · simp [h]
        omega
    refine ⟨?_, le_trans hle hacc2.1, ?_⟩
    · rcases List.mem_cons.mp hmem with h1 | h1
      · rw [h1]
        by_cases h : c.id < acc.id
        · rw [if_pos h]
          exact List.mem_cons_of_mem acc (List.mem_cons_self c rest)
        · rw [if_neg h]
          exact List.mem_cons_self acc (c :: rest)
      · exact List.mem_cons_of_mem acc (List.mem_cons_of_mem c h1)
    · intro m hm
      rcases List.mem_cons.mp hm with h1 | h1
      · rw [h1]
        exact le_trans hle hacc2.2
      · exact hall m h1

theorem reduceOldest_mem (l : List DiscordMsg) (h : l ≠ []) :
    reduceOldest l ∈ l := by
  cases l with
  | nil => exact absurd rfl h
  | cons m rest => exact (foldlOldest_bounds rest m).1

theorem reduceOldest_le (l : List DiscordMsg) :
    ∀ m ∈ l, (reduceOldest l).id ≤ m.id := by
  cases l with
  | nil => intro m hm; simp at hm
  | cons m0 rest =>
    intro m hm
    rcases List.mem_cons.mp hm with h1 | h1
    · rw [h1]
      exact (foldlOldest_bounds rest m0).2.1
    · exact (foldlOldest_bounds rest m0).2.2 m h1

instance : IsTrans DiscordMsg (fun a b => b.id < a.id) :=
  ⟨fun _ _ _ h1 h2 => Nat.lt_trans h2 h1⟩

/-- Boolean check that a message list is strictly descending by id. -/
def descBy : List DiscordMsg → Bool
  | [] => true
  | [_] => true
  | a :: b :: t => decide (b.id < a.id) && descBy (b :: t)

theorem chain'_of_descBy :
    ∀ l : List DiscordMsg, descBy l = true →
      List.Chain' (fun a b => b.id < a.id) l := by
  intro l
  induction l with
  | nil => intro _; simp
  | cons a t ih =>
    cases t with
    | nil => intro _; simp
    | cons b t2 =>
      intro h
      rw [descBy, Bool.and_eq_true, decide_eq_true_eq] at h
      exact List.chain'_cons.mpr ⟨h.1, ih h.2⟩

set_option maxRecDepth 100000 in
/-- Counterexample to C2 as stated: on a channel whose ids only ever grow,
the first context build on 201 messages sets the boundary to id 102, and a
later build after 100 more messages replaces it with id 202, a comparably
greater (newer) id, not a lesser one. -/
theorem checkpoint_counterexample :
    ((buildContextFromDiscord (fun _ _ => "S") (mkChannel 201 1)
        { oldestSeenMessageId := none, summary := none }).1.oldestSeenMessageId
      = some 102)
    ∧ ((buildContextFromDiscord (fun _ _ => "S") (mkChannel 301 1)
        (buildContextFromDiscord (fun _ _ => "S") (mkChannel 201 1)
          { oldestSeenMessageId := none,
            summary := none }).1).1.oldestSeenMessageId
      = some 202)
    ∧ 102 < 202 :=
  ⟨by decide, by decide, by decide⟩

/-- C2 (amended): for a channel receiving monotonically increasing ids,
once the checkpoint boundary is set from a snapshot, a later context build
on the grown channel only ever replaces it with a comparably greater
(newer) id, never an older one. The channel snapshots are newest-first and
strictly descending; the earlier snapshot `older` had a full first page,
and the later snapshot prepends `newer`. -/
theorem checkpoint_moves_newer (summarizeFn : String → List DiscordMsg → String)
    (older newer : List DiscordMsg) (cp : ChannelCheckpoint) (y : Nat)
    (hchain : List.Chain' (fun a b => b.id < a.id) (newer ++ older))
    (hlen : 100 ≤ older.length)
    (hcp : cp.oldestSeenMessageId
      = some (reduceOldest (fetchChannelMessages older 100 none)).id)
    (hres : ((buildContextFromDiscord summarizeFn (newer ++ older)
        cp).1).oldestSeenMessageId = some y) :
    (reduceOldest (fetchChannelMessages older 100 none)).id ≤ y := by
  have hpair : List.Pairwise (fun a b => b.id < a.id) (newer ++ older) :=
    List.chain'_iff_pairwise.mp hchain
  have holdtake : (older.take 100).length = 100 := by
    rw [List.length_take]
    omega
  have holdne : older.take 100 ≠ [] := by
    intro h
    rw [h] at holdtake
    simp at holdtake
  have hxmem : reduceOldest (older.take 100) ∈ older.take 100 :=
    reduceOldest_mem _ holdne
  have hforall : ∀ e ∈ (newer ++ older).take 100,
      (reduceOldest (older.take 100)).id ≤ e.id := by
    intro e he
    rw [List.take_append_eq_append_take] at he
    rcases List.mem_append.mp he with h1 | h1
    · have henew : e ∈ newer := List.take_subset 100 newer h1
      have hxold : reduceOldest (older.take 100) ∈ older :=
        List.take_subset 100 older hxmem
      have := (List.pairwise_append.mp hpair).2.2 e henew
        (reduceOldest (older.take 100)) hxold
      omega
    · have h2 : e ∈ older.take 100 := by
        have hsub : older.take (100 - newer.length) ⊆ older.take 100 := by
          intro a ha
          rw [show older.take (100 - newer.length)
              = (older.take 100).take (100 - newer.length) by
            rw [List.take_take]
            congr 1
            omega] at ha
          exact List.take_subset _ _ ha
        exact hsub h1
      exact reduceOldest_le (older.take 100) e h2
  have hfetch : fetchChannelMessages older 100 none = older.take 100 := rfl
  rw [hfetch] at hcp ⊢
  have hlen2 : ((newer ++ older).take 100).length = 100 := by
    rw [List.length_take, List.length_append]
    omega
  have hne2 : ((newer ++ older).take 100).isEmpty = false := by
    cases h : (newer ++ older).take 100 with
    | nil => rw [h] at hlen2; simp at hlen2
    | cons a l => rfl
  have hfetch2 : fetchChannelMessages (newer ++ older) 100 none
      = (newer ++ older).take 100 := rfl
  unfold buildContextFromDiscord at hres
  simp only [hfetch2] at hres
  rw [hne2] at hres
  simp only [Bool.false_eq_true, if_false] at hres
  by_cases hcond : ((newer ++ older).take 100).length = 100
      ∧ cp.oldestSeenMessageId
        ≠ some (reduceOldest ((newer ++ older).take 100)).id
  · rw [if_pos hcond] at hres
    by_cases hold : (fetchChannelMessages (newer ++ older) 100
        (some (reduceOldest ((newer ++ older).take 100)).id)).isEmpty = true
    · rw [if_pos hold] at hres
      simp only [hcp, Option.some.injEq] at hres
      omega
    · rw [if_neg hold] at hres
      simp only [Option.some.injEq] at hres
      have hrmem : reduceOldest ((newer ++ older).take 100)
          ∈ (newer ++ older).take 100 := by
        apply reduceOldest_mem
        intro h
        rw [h] at hlen2
        simp at hlen2
      have := hforall _ hrmem
      omega
  · rw [if_neg hcond] at hres
    simp only [hcp, Option.some.injEq] at hres
    omega

set_option maxRecDepth 100000 in
/-- Witness for the amended C2: from a 201-message snapshot with boundary
102, the build on the grown 301-message channel moves the boundary to a
newer id. -/
theorem checkpoint_moves_newer_witness :
    (reduceOldest (fetchChannelMessages (mkChannel 201 1) 100 none)).id ≤ 202 :=
  checkpoint_moves_newer (fun _ _ => "S") (mkChannel 201 1) (mkChannel 301 202)
    { oldestSeenMessageId := some 102, summary := some "S" } 202
    (chain'_of_descBy _ (by decide)) (by decide) (by decide) (by decide)

/-! ## Message splitter (DiscordAgent.splitMessageByNewline) -/

/-- JavaScript `text.lastIndexOf(ch, pos)` for a one-character search
string: the greatest index `i ≤ pos` holding `ch`, if any. -/
def lastIndexOfChar (s : List Char) (ch : Char) (pos : Nat) : Option Nat :=
  (List.range (pos + 1)).reverse.find? (fun i => s[i]? == some ch)

/-- The source treats a split index of `-1` or `0` as not found; this maps
both to `none`. -/
def normSplitIdx : Option Nat → Option Nat
  | some 0 => none
  | some (i + 1) => some (i + 1)
  | none => none

/-- Split index chosen for one loop iteration: the last newline at or
before `maxLength`, else the last space, else the hard cutoff at
`maxLength`. -/
def splitIdxAt (maxLength : Nat) (l : List Char) : Nat :=
  (match normSplitIdx (lastIndexOfChar l '\n' maxLength) with
   | some i => some i
   | none => normSplitIdx (lastIndexOfChar l ' ' maxLength)).getD maxLength

/-- While loop of `splitMessageByNewline`: emit the prefix up to the split
index, then continue after skipping the character at the split index. The
fuel argument only bounds the iteration count; `fuel = remaining.length`
is always enough because every round drops at least one character. -/
def splitLoopGo (maxLength : Nat) : Nat → List Char → List (List Char)
  | 0, _ => []
  | _ + 1, [] => []
  | fuel + 1, c :: rest =>
    if (c :: rest).length ≤ maxLength then [c :: rest]
    else
      (c :: rest).take (splitIdxAt maxLength (c :: rest))
        :: splitLoopGo maxLength fuel
            ((c :: rest).drop (splitIdxAt maxLength (c :: rest) + 1))

/-- Embedding of `splitMessageByNewline(text, maxLength)`. -/
def splitMessageByNewline (text : List Char) (maxLength : Nat) :
    List (List Char) :=
  if text.length ≤ maxLength then [text] else splitLoopGo maxLength text.length text

theorem lastIndexOfChar_le (s : List Char) (ch : Char) (pos i : Nat)
    (h : lastIndexOfChar s ch pos = some i) : i ≤ pos := by
  have hmem := List.mem_of_find?_eq_some h
  rw [List.mem_reverse] at hmem
  have := List.mem_range.mp hmem
  omega

theorem normSplitIdx_eq_some (o : Option Nat) (i : Nat)
    (h : normSplitIdx o = some i) : o = some i := by
  cases o with
  | none => simp [normSplitIdx] at h
  | some j =>
    cases j with
    | zero => simp [normSplitIdx] at h
    | succ k =>
      simp only [normSplitIdx] at h
      rw [h]

theorem splitIdxAt_le (maxLength : Nat) (l : List Char) :
    splitIdxAt maxLength l ≤ maxLength := by
  unfold splitIdxAt
  cases h1 : normSplitIdx (lastIndexOfChar l '\n' maxLength) with
  | some i =>
    simp only [Option.getD_some]
    exact lastIndexOfChar_le l '\n' maxLength i (normSplitIdx_eq_some _ _ h1)
  | none =>
    cases h2 : normSplitIdx (lastIndexOfChar l ' ' maxLength) with
    | some i =>
      simp only [Option.getD_some]
      exact lastIndexOfChar_le l ' ' maxLength i (normSplitIdx_eq_some _ _ h2)
    | none => simp

theorem splitLoopGo_chunk_le (maxLength : Nat) :
    ∀ (fuel : Nat) (remaining : List Char),
      ∀ chunk ∈ splitLoopGo maxLength fuel remaining,
        chunk.length ≤ maxLength := by
  intro fuel
  induction fuel with
  | zero =>
    intro remaining chunk hmem
    simp [splitLoopGo] at hmem
  | succ n ih =>
    intro remaining chunk hmem
    cases remaining with
    | nil => simp [splitLoopGo] at hmem
    | cons c rest =>
      rw [splitLoopGo] at hmem
      by_cases hle : (c :: rest).length ≤ maxLength
      · rw [if_pos hle] at hmem
        rw [List.mem_singleton] at hmem
        rw [hmem]
        exact hle
      · rw [if_neg hle] at hmem
        rcases List.mem_cons.mp hmem with h1 | h1
        · rw [h1, List.length_take]
          have := splitIdxAt_le maxLength (c :: rest)
          omega
        · exact ih _ chunk h1

/-- C10: every chunk produced by the splitter fits in `maxLength`, but the
splitter is lossy at hard cutoffs: on an input with no newline or space in
its first `maxLength + 1` characters, the character at index `maxLength`
is skipped and appears in no chunk. -/
theorem splitMessage_bound_and_lossy :
    (∀ (text : List Char) (maxLength : Nat), 1 ≤ maxLength →
      ∀ chunk ∈ splitMessageByNewline text maxLength,
        chunk.length ≤ maxLength)
    ∧ ∃ (text : List Char) (maxLength : Nat) (c : Char),
        1 ≤ maxLength ∧ maxLength < text.length
        ∧ (∀ ch ∈ text.take (maxLength + 1), ch ≠ '\n' ∧ ch ≠ ' ')
        ∧ text[maxLength]? = some c
        ∧ ∀ chunk ∈ splitMessageByNewline text maxLength, c ∉ chunk := by
  constructor
  · intro text maxLength _h1 chunk hmem
    unfold splitMessageByNewline at hmem
    by_cases hle : text.length ≤ maxLength
    · rw [if_pos hle] at hmem
      rw [List.mem_singleton] at hmem
      rw [hmem]
      exact hle
    · rw [if_neg hle] at hmem
      exact splitLoopGo_chunk_le maxLength text.length text chunk hmem
  · exact ⟨['a', 'b', 'c', 'd'], 2, 'c', by decide, by decide, by decide,
      by decide, by decide⟩

/-- Witness for C10: the first chunk of splitting `abc` at width 2 obeys
the width bound. -/
theorem splitMessage_bound_and_lossy_witness :
    (['a', 'b'] : List Char).length ≤ 2 :=
  splitMessage_bound_and_lossy.1 ['a', 'b', 'c'] 2 (by decide) ['a', 'b']
    (by decide)

end AwesomeAgents
